import Mathlib

/-!
Verification of the Currency Conversion Engine of this repository.

Shallow embedding of the core logic of `src/components/currency-selector.tsx`:
the price-feed normalizer (`getLatestTokenPrices`), the rate calculation
effect (`computeConversion` / `recompute`), the amount-input validator
(`handleFromAmountChange`) and the currency swap (`handleCurrencySwap`).

Modelling conventions:
* JavaScript numbers are modelled as rationals (`ℚ`); division by zero,
  which in JavaScript yields `Infinity`/`NaN`, yields `0` in this model —
  theorems touching that corner note it explicitly.
* The `date` strings are modelled by their parsed timestamps (`ℤ`): the
  source always compares `new Date(s)` values, never the raw strings, and
  the spec treats dates as opaque totally ordered timestamps.
* The JavaScript `Map` is modelled as an association list with `Map.set`
  semantics: updating an existing key keeps its position, a new key is
  appended (insertion order), and `Map.get` returns the entry of the key.
-/

/-- One raw price observation, `interface CurrencyPrice` of the source
(a currency string, a price number, a date string), with the date replaced
by its parsed timestamp. -/
@[ext]
structure CurrencyPrice where
  currency : String
  price : ℚ
  date : ℤ
deriving DecidableEq, Repr

/-- Entries of the JavaScript `Map` from a currency string to a price/date
pair used by `getLatestTokenPrices`. -/
abbrev PriceMap := List (String × (ℚ × ℤ))

/-- Model of `Map.get`: the value stored for key `k`, if present. Keys are
unique in every map this development builds, so first match suffices. -/
def mapGet (m : PriceMap) (k : String) : Option (ℚ × ℤ) :=
  (m.find? (fun e => e.1 = k)).map (fun e => e.2)

/-- Model of `Map.set`: update the value in place when the key exists
(keeping its position in insertion order), otherwise append the new entry. -/
def mapSet (m : PriceMap) (k : String) (v : ℚ × ℤ) : PriceMap :=
  if m.any (fun e => e.1 = k) then
    m.map (fun e => if e.1 = k then (k, v) else e)
  else
    m ++ [(k, v)]

/-- Body of the `data.forEach` loop of `getLatestTokenPrices`: look up the
existing entry for the item's currency; store the item when there is none or
when the item's date is strictly greater. -/
def latestStep (m : PriceMap) (item : CurrencyPrice) : PriceMap :=
  match mapGet m item.currency with
  | none => mapSet m item.currency (item.price, item.date)
  | some existing =>
      if existing.2 < item.date then mapSet m item.currency (item.price, item.date) else m

/-- Source function `getLatestTokenPrices` (lines 96–114): fold the feed
into a map of latest prices, then convert the map back to an array of
`CurrencyPrice`. -/
def getLatestTokenPrices (data : List CurrencyPrice) : List CurrencyPrice :=
  ((data.foldl latestStep []).map (fun e => ⟨e.1, e.2.1, e.2.2⟩))

/-- Model of the memoized `currencyPrices` lookup (source lines 169–173): a
map from currency to price built from the normalized list, queried by
`Map.get`. A later duplicate key would overwrite an earlier one, so the last
matching entry is returned; for the unique-keyed normalizer output this is
just the entry of the currency. -/
def pricesGet (cs : List CurrencyPrice) (c : String) : Option ℚ :=
  ((cs.filter (fun x => x.currency = c)).getLast?).map (fun x => x.price)

/-- Numeric value of a digit string, most significant digit first. -/
def digitsToNat (ds : List Char) : ℕ :=
  ds.foldl (fun n c => 10 * n + (c.toNat - ('0').toNat)) 0

/-- Syntactic decomposition of a JavaScript decimal literal: sign, integer
digits, fraction digits, exponent sign, exponent digits. -/
structure FloatParts where
  neg : Bool
  intDs : List Char
  fracDs : List Char
  expNeg : Bool
  expDs : List Char
deriving DecidableEq, Repr

/-- Syntactic stage of `parseFloat`: skip leading whitespace, read an
optional sign, integer digits, an optional fraction after a single dot and
an optional exponent, ignoring any trailing garbage. Returns `none` exactly
where JavaScript returns `NaN`: when no digit occurs in the mantissa.
`Infinity` literals are outside the model. -/
def parseDecimalParts (s : String) : Option FloatParts :=
  let cs := s.data.dropWhile (fun c => c = ' ' ∨ c = '\t' ∨ c = '\n' ∨ c = '\r')
  let signAndRest : Bool × List Char :=
    match cs with
    | '-' :: rest => (true, rest)
    | '+' :: rest => (false, rest)
    | _ => (false, cs)
  let cs1 := signAndRest.2
  let intDs := cs1.takeWhile Char.isDigit
  let rest1 := cs1.dropWhile Char.isDigit
  let fracAndRest : List Char × List Char :=
    match rest1 with
    | '.' :: r => (r.takeWhile Char.isDigit, r.dropWhile Char.isDigit)
    | _ => ([], rest1)
  let fracDs := fracAndRest.1
  if intDs = [] ∧ fracDs = [] then none
  else
    let expPart : Bool × List Char :=
      match fracAndRest.2 with
      | 'e' :: '-' :: r => (true, r.takeWhile Char.isDigit)
      | 'e' :: '+' :: r => (false, r.takeWhile Char.isDigit)
      | 'e' :: r => (false, r.takeWhile Char.isDigit)
      | 'E' :: '-' :: r => (true, r.takeWhile Char.isDigit)
      | 'E' :: '+' :: r => (false, r.takeWhile Char.isDigit)
      | 'E' :: r => (false, r.takeWhile Char.isDigit)
      | _ => (false, [])
    some ⟨signAndRest.1, intDs, fracDs, expPart.1, expPart.2⟩

/-- Numeric stage of `parseFloat`: the rational value of a decomposed
decimal literal. -/
def partsToRat (p : FloatParts) : ℚ :=
  let mantissa : ℚ :=
    (digitsToNat p.intDs : ℚ) + (digitsToNat p.fracDs : ℚ) / (10 : ℚ) ^ p.fracDs.length
  let scale : ℚ := (10 : ℚ) ^ digitsToNat p.expDs
  let absValue : ℚ := if p.expNeg then mantissa / scale else mantissa * scale
  if p.neg then -absValue else absValue

/-- Model of the JavaScript `parseFloat` builtin for decimal literals;
`none` stands for `NaN`. -/
def parseFloat (s : String) : Option ℚ :=
  (parseDecimalParts s).map partsToRat

/-- Result classification of the rate-calculation effect (spec
`ConversionResult`), read off the branches of source lines 180–201. -/
inductive ConversionResult where
  | Unavailable : ConversionResult
  | InvalidAmount : ConversionResult
  | Converted (rate : ℚ) (outputAmount : ℚ) : ConversionResult
deriving DecidableEq, Repr

/-- RateCalculator (source lines 180–201, result view): look up both prices;
when either is missing the rate is unavailable; otherwise the rate is
`toPrice / fromPrice` and the amount must parse (`parseFloat`, not `NaN`) to
a number strictly greater than zero. -/
def computeConversion (index : List CurrencyPrice) (fromC toC amountText : String) :
    ConversionResult :=
  match pricesGet index fromC, pricesGet index toC with
  | some fp, some tp =>
      let rate := tp / fp
      match parseFloat amountText with
      | some a => if 0 < a then .Converted rate (a * rate) else .InvalidAmount
      | none => .InvalidAmount
  | _, _ => .Unavailable

/-- State fields written by the recompute effect. Here `toAmount = some x`
stands for the string produced by formatting `x` to six fraction digits
being displayed and `none` for the cleared string; the fixed-digit
formatting itself is presentation and not modelled. -/
structure RecomputeResult where
  exchangeRate : Option ℚ
  toAmount : Option ℚ
  error : String
deriving DecidableEq, Repr

/-- Recompute effect (source lines 176–202) as a pure function of its
dependencies. Faithful to the source order: the error is first cleared; if a
price is missing, rate and amount are cleared and the error is set only when
both currency fields are nonempty and loading is over; otherwise the rate is
set (before any amount check) and the amount either set or cleared with an
error. -/
def recompute (index : List CurrencyPrice) (fromC toC amountText : String)
    (loading : Bool) : RecomputeResult :=
  match pricesGet index fromC, pricesGet index toC with
  | some fp, some tp =>
      let rate := tp / fp
      match parseFloat amountText with
      | some a =>
          if 0 < a then ⟨some rate, some (a * rate), ""⟩
          else ⟨some rate, none, "Please enter a valid amount to send."⟩
      | none => ⟨some rate, none, "Please enter a valid amount to send."⟩
  | _, _ =>
      ⟨none, none,
        if fromC ≠ "" ∧ toC ≠ "" ∧ loading = false then
          "Exchange rate not available for selected currencies."
        else ""⟩

/-- Boolean matcher for the regular expression of `handleFromAmountChange`
(digits, optionally followed by a single dot and more digits). -/
def matchesAmountGrammar (s : String) : Bool :=
  match s.data.dropWhile Char.isDigit with
  | [] => true
  | c :: rest => c = '.' && rest.all Char.isDigit

/-- Source handler `handleFromAmountChange` (lines 205–211): adopt the
candidate text when it matches the grammar (or is empty, a redundant
disjunct of the source), otherwise keep the current text. -/
def handleFromAmountChange (current candidate : String) : String :=
  if matchesAmountGrammar candidate || candidate = "" then candidate else current

/-- Source handler `handleCurrencySwap` (lines 214–217): both state setters
read the pre-event values, so the pair is exchanged atomically. -/
def handleCurrencySwap (s : String × String) : String × String :=
  (s.2, s.1)

/-- Initial currency selection after the feed resolves (source lines
149–156): first currency of the normalized list; second if it exists, else
the first again; both fields keep their initial empty value when the list is
empty. -/
def initialSelection (cs : List CurrencyPrice) : String × String :=
  match cs with
  | [] => ("", "")
  | [x] => (x.currency, x.currency)
  | x :: y :: _ => (x.currency, y.currency)

/-- State of the `fromAmount` field after a sequence of input events,
starting from the initial state of source line 124 and filtering each event
through `handleFromAmountChange`. -/
def fromAmountAfter (edits : List String) : String :=
  edits.foldl handleFromAmountChange "1.0"

/-- Grammar of the amount regular expression as a proposition: the string
splits into a digit run, optionally a dot, and a digit run. -/
def amountGrammar (s : String) : Prop :=
  ∃ a b : List Char, (∀ c ∈ a, c.isDigit) ∧ (∀ c ∈ b, c.isDigit) ∧
    (s.data = a ++ b ∨ s.data = a ++ '.' :: b)

/-- First-occurrence order of a list's elements: the insertion order of the
keys of a JavaScript `Map` filled by one pass over the list. -/
def firstOccurrences (l : List String) : List String :=
  l.foldl (fun acc c => if c ∈ acc then acc else acc ++ [c]) []

/-- From/to pair read off the first two entries of an ordered currency list
(the shape of the initial-selection rule). -/
def headPair (l : List String) : String × String :=
  match l with
  | [] => ("", "")
  | [c] => (c, c)
  | c1 :: c2 :: _ => (c1, c2)

theorem parseFloat_two : parseFloat "2" = some 2 := by
  show (parseDecimalParts "2").map partsToRat = some 2
  have h : parseDecimalParts "2" = some ⟨false, ['2'], [], false, []⟩ := by decide
  have h2 : digitsToNat ['2'] = 2 := by decide
  have h0 : digitsToNat ([] : List Char) = 0 := by decide
  rw [h]
  simp [partsToRat, h2, h0]

theorem parseFloat_five : parseFloat "5" = some 5 := by
  show (parseDecimalParts "5").map partsToRat = some 5
  have h : parseDecimalParts "5" = some ⟨false, ['5'], [], false, []⟩ := by decide
  have h2 : digitsToNat ['5'] = 5 := by decide
  have h0 : digitsToNat ([] : List Char) = 0 := by decide
  rw [h]
  simp [partsToRat, h2, h0]

theorem parseFloat_empty : parseFloat "" = none := by
  show (parseDecimalParts "").map partsToRat = none
  have h : parseDecimalParts "" = none := by decide
  rw [h]
  rfl

theorem parseFloat_one_point_zero : parseFloat "1.0" = some 1 := by
  show (parseDecimalParts "1.0").map partsToRat = some 1
  have h : parseDecimalParts "1.0" = some ⟨false, ['1'], ['0'], false, []⟩ := by decide
  have h1 : digitsToNat ['1'] = 1 := by decide
  have hz : digitsToNat ['0'] = 0 := by decide
  have h0 : digitsToNat ([] : List Char) = 0 := by decide
  rw [h]
  simp [partsToRat, h1, hz, h0]


theorem dropWhile_append_of_all {p : Char → Bool} (a l : List Char)
    (ha : ∀ c ∈ a, p c) : (a ++ l).dropWhile p = l.dropWhile p := by
  induction a with
  | nil => rfl
  | cons c cs ih =>
      have hc : p c = true := ha c (List.mem_cons_self c cs)
      simp only [List.cons_append, List.dropWhile_cons, hc, if_true]
      exact ih (fun x hx => ha x (List.mem_cons_of_mem c hx))

theorem matchesAmountGrammar_iff (s : String) :
    matchesAmountGrammar s = true ↔ amountGrammar s := by
  have hsplit : s.data = s.data.takeWhile Char.isDigit ++ s.data.dropWhile Char.isDigit :=
    (List.takeWhile_append_dropWhile (p := Char.isDigit) (l := s.data)).symm
  constructor
  · intro h
    unfold matchesAmountGrammar at h
    rcases hd : s.data.dropWhile Char.isDigit with _ | ⟨c, rest⟩
    · rw [hd] at hsplit
      exact ⟨s.data.takeWhile Char.isDigit, [], fun x hx => List.mem_takeWhile_imp hx,
        fun x hx => absurd hx (List.not_mem_nil x), Or.inl hsplit⟩
    · rw [hd] at hsplit h
      have hconj := h
      simp only [Bool.and_eq_true, decide_eq_true_eq] at hconj
      obtain ⟨hc, hrest⟩ := hconj
      subst hc
      exact ⟨s.data.takeWhile Char.isDigit, rest, fun x hx => List.mem_takeWhile_imp hx,
        fun x hx => List.all_eq_true.mp hrest x hx, Or.inr hsplit⟩
  · rintro ⟨a, b, ha, hb, hform | hform⟩
    · unfold matchesAmountGrammar
      rw [hform, dropWhile_append_of_all a b ha, List.dropWhile_eq_nil_iff.mpr hb]
    · unfold matchesAmountGrammar
      rw [hform, dropWhile_append_of_all a ('.' :: b) ha]
      have hdot : Char.isDigit '.' = false := by decide
      rw [List.dropWhile_cons, hdot]
      simpa using hb

theorem handleFromAmountChange_of_true (cur cand : String)
    (h : matchesAmountGrammar cand = true) : handleFromAmountChange cur cand = cand := by
  simp [handleFromAmountChange, h]

theorem handleFromAmountChange_of_false (cur cand : String)
    (h : matchesAmountGrammar cand = false) : handleFromAmountChange cur cand = cur := by
  have hne : cand ≠ "" := by
    intro he
    subst he
    exact absurd h (by decide)
  simp [handleFromAmountChange, h, hne]

/-- C7: `handleFromAmountChange` adopts the candidate text if and only if it
matches the grammar of the amount regular expression (empty, or digits with
at most one decimal point), and otherwise retains the current text; in
particular it rejects the texts 1.2.3, abc and -5 and accepts the empty
text, 0, 12.5 and a lone dot. -/
theorem handleFromAmountChange_spec (current candidate : String) :
    (amountGrammar candidate → handleFromAmountChange current candidate = candidate) ∧
    (¬ amountGrammar candidate → handleFromAmountChange current candidate = current) ∧
    handleFromAmountChange current "1.2.3" = current ∧
    handleFromAmountChange current "abc" = current ∧
    handleFromAmountChange current "-5" = current ∧
    handleFromAmountChange current "" = "" ∧
    handleFromAmountChange current "0" = "0" ∧
    handleFromAmountChange current "12.5" = "12.5" ∧
    handleFromAmountChange current "." = "." := by
  refine ⟨?_, ?_, ?_, ?_, ?_, ?_, ?_, ?_, ?_⟩
  · intro h
    exact handleFromAmountChange_of_true _ _ ((matchesAmountGrammar_iff _).mpr h)
  · intro h
    have hb : matchesAmountGrammar candidate = false := by
      cases hmb : matchesAmountGrammar candidate
      · rfl
      · exact absurd ((matchesAmountGrammar_iff _).mp hmb) h
    exact handleFromAmountChange_of_false _ _ hb
  · exact handleFromAmountChange_of_false _ _ (by decide)
  · exact handleFromAmountChange_of_false _ _ (by decide)
  · exact handleFromAmountChange_of_false _ _ (by decide)
  · exact handleFromAmountChange_of_true _ _ (by decide)
  · exact handleFromAmountChange_of_true _ _ (by decide)
  · exact handleFromAmountChange_of_true _ _ (by decide)
  · exact handleFromAmountChange_of_true _ _ (by decide)

/-- Witness for C7 at a concrete input: the candidate 12.5 matches the
grammar and is adopted. -/
theorem handleFromAmountChange_spec_witness :
    handleFromAmountChange "7" "12.5" = "12.5" :=
  (handleFromAmountChange_spec "7" "12.5").1
    ⟨['1', '2'], ['5'], by decide, by decide, Or.inr rfl⟩

/-- C8: swapping twice restores the original pair of selected currencies,
and the swapped pair has equal components exactly when the original did (the
model of the handler exchanges both fields of one state atomically). -/
theorem handleCurrencySwap_spec (s : String × String) :
    handleCurrencySwap (handleCurrencySwap s) = s ∧
    ((handleCurrencySwap s).1 = (handleCurrencySwap s).2 ↔ s.1 = s.2) :=
  ⟨rfl, eq_comm⟩

theorem matchesAmountGrammar_handleFromAmountChange (cur cand : String)
    (h : matchesAmountGrammar cur = true) :
    matchesAmountGrammar (handleFromAmountChange cur cand) = true := by
  cases hmb : matchesAmountGrammar cand with
  | true => rw [handleFromAmountChange_of_true cur cand hmb]; exact hmb
  | false => rw [handleFromAmountChange_of_false cur cand hmb]; exact h

theorem fromAmount_foldl_inv (edits : List String) : ∀ cur : String,
    matchesAmountGrammar cur = true →
    matchesAmountGrammar (edits.foldl handleFromAmountChange cur) = true := by
  induction edits with
  | nil => exact fun cur h => h
  | cons e es ih =>
      exact fun cur h => ih _ (matchesAmountGrammar_handleFromAmountChange cur e h)

/-- C9: the `fromAmount` text starts at the well-formed default of source
line 124 and, since its only mutator filters every candidate through the
grammar, it matches the amount grammar in every reachable state. -/
theorem fromAmount_invariant :
    fromAmountAfter [] = "1.0" ∧
    ∀ edits : List String, amountGrammar (fromAmountAfter edits) := by
  refine ⟨rfl, fun edits => ?_⟩
  exact (matchesAmountGrammar_iff _).mp (fromAmount_foldl_inv edits "1.0" (by decide))

theorem computeConversion_eq_converted (index : List CurrencyPrice)
    (fromC toC amountText : String) (fp tp a : ℚ)
    (hf : pricesGet index fromC = some fp) (ht : pricesGet index toC = some tp)
    (hp : parseFloat amountText = some a) (ha : 0 < a) :
    computeConversion index fromC toC amountText = .Converted (tp / fp) (a * (tp / fp)) := by
  unfold computeConversion
  rw [hf, ht, hp]
  simp [ha]

/-- C1: whenever both currencies are keys of the price index and the amount
text parses to a number strictly greater than zero, the conversion result is
`Converted` with rate `toPrice / fromPrice` and output amount
`parsedAmount * rate`. -/
theorem computeConversion_converted_spec (index : List CurrencyPrice)
    (fromC toC amountText : String) (fp tp a : ℚ)
    (hf : pricesGet index fromC = some fp) (ht : pricesGet index toC = some tp)
    (hp : parseFloat amountText = some a) (ha : 0 < a) :
    computeConversion index fromC toC amountText = .Converted (tp / fp) (a * (tp / fp)) :=
  computeConversion_eq_converted index fromC toC amountText fp tp a hf ht hp ha

/-- Witness for C1 at a concrete index and amount text. -/
theorem computeConversion_converted_spec_witness :
    computeConversion [⟨"A", 1, 0⟩, ⟨"B", 2, 0⟩] "A" "B" "2" =
      .Converted ((2 : ℚ) / 1) (2 * ((2 : ℚ) / 1)) :=
  computeConversion_converted_spec [⟨"A", 1, 0⟩, ⟨"B", 2, 0⟩] "A" "B" "2" 1 2 2
    (by decide) (by decide) parseFloat_two (by norm_num)

theorem mapGet_eq_none_iff (m : PriceMap) (k : String) :
    mapGet m k = none ↔ ∀ e ∈ m, e.1 ≠ k := by
  unfold mapGet
  rw [Option.map_eq_none', List.find?_eq_none]
  simp

theorem mapSet_get_self (m : PriceMap) (k : String) (v : ℚ × ℤ) :
    mapGet (mapSet m k v) k = some v := by
  unfold mapSet
  cases ha : m.any (fun e => decide (e.1 = k)) with
  | false =>
      simp only [ha, Bool.false_eq_true, if_false]
      unfold mapGet
      rw [List.find?_append]
      have h1 : m.find? (fun e => decide (e.1 = k)) = none := by
        rw [List.find?_eq_none]
        intro e he
        have := List.any_eq_false.mp ha e he
        simpa using this
      rw [h1]
      simp
  | true =>
      simp only [ha, if_true]
      unfold mapGet
      rw [List.find?_map]
      have hcong : ((fun (e : String × (ℚ × ℤ)) => decide (e.1 = k)) ∘
          (fun e => if e.1 = k then (k, v) else e)) = fun e => decide (e.1 = k) := by
        funext e
        by_cases he : e.1 = k <;> simp [he]
      rw [hcong]
      obtain ⟨e0, he0m, he0⟩ := List.any_eq_true.mp ha
      have hsome : (m.find? (fun e => decide (e.1 = k))).isSome := by
        rw [List.find?_isSome]
        exact ⟨e0, he0m, he0⟩
      obtain ⟨e1, he1⟩ := Option.isSome_iff_exists.mp hsome
      have hk1 : e1.1 = k := by simpa using List.find?_some he1
      rw [he1]
      simp [hk1]

theorem mapSet_get_other (m : PriceMap) (k : String) (v : ℚ × ℤ) (c : String)
    (hne : c ≠ k) : mapGet (mapSet m k v) c = mapGet m c := by
  unfold mapSet
  cases ha : m.any (fun e => decide (e.1 = k)) with
  | false =>
      simp only [ha, Bool.false_eq_true, if_false]
      unfold mapGet
      rw [List.find?_append]
      have h2 : [(k, v)].find? (fun e => decide (e.1 = c)) = none := by
        rw [List.find?_eq_none]
        intro e he
        have : e = (k, v) := by simpa using he
        subst this
        simpa using fun h => hne h.symm
      rw [h2]
      cases m.find? (fun e => decide (e.1 = c)) <;> rfl
  | true =>
      simp only [ha, if_true]
      unfold mapGet
      rw [List.find?_map]
      have hcong : ((fun (e : String × (ℚ × ℤ)) => decide (e.1 = c)) ∘
          (fun e => if e.1 = k then (k, v) else e)) = fun e => decide (e.1 = c) := by
        funext e
        by_cases he : e.1 = k
        · simp [he]
        · simp [he]
      rw [hcong]
      rcases hf : m.find? (fun e => decide (e.1 = c)) with _ | e1
      · rw [hf]
        rfl
      · have hc1 : e1.1 = c := by simpa using List.find?_some hf
        have hk1 : ¬ e1.1 = k := by rw [hc1]; exact hne
        rw [hf]
        simp [hk1]

theorem mapSet_keys (m : PriceMap) (k : String) (v : ℚ × ℤ) :
    (mapSet m k v).map Prod.fst =
      if k ∈ m.map Prod.fst then m.map Prod.fst else m.map Prod.fst ++ [k] := by
  unfold mapSet
  cases ha : m.any (fun e => decide (e.1 = k)) with
  | false =>
      have hk : k ∉ m.map Prod.fst := by
        intro hmem
        obtain ⟨e, hem, hek⟩ := List.mem_map.mp hmem
        have := List.any_eq_false.mp ha e hem
        simp [hek] at this
      simp [ha, hk]
  | true =>
      have hk : k ∈ m.map Prod.fst := by
        obtain ⟨e, hem, hek⟩ := List.any_eq_true.mp ha
        exact List.mem_map.mpr ⟨e, hem, by simpa using hek⟩
      simp only [ha, if_true, hk]
      rw [List.map_map]
      apply List.map_congr_left
      intro e _
      by_cases he : e.1 = k <;> simp [he]

/-- Restriction of `latestStep` to a single currency: the stored pair after
seeing one more observation of that currency. -/
def bestStep (cur : Option (ℚ × ℤ)) (item : CurrencyPrice) : Option (ℚ × ℤ) :=
  match cur with
  | none => some (item.price, item.date)
  | some e => if e.2 < item.date then some (item.price, item.date) else some e

/-- Observations of one currency, in input order. -/
def obsFor (c : String) (data : List CurrencyPrice) : List CurrencyPrice :=
  data.filter (fun x => x.currency = c)

theorem latestStep_get (m : PriceMap) (item : CurrencyPrice) (c : String) :
    mapGet (latestStep m item) c =
      if item.currency = c then bestStep (mapGet m c) item else mapGet m c := by
  by_cases hc : item.currency = c
  · subst hc
    rw [if_pos rfl]
    rcases hg : mapGet m item.currency with _ | e
    · simp only [latestStep, hg, bestStep]
      exact mapSet_get_self m item.currency (item.price, item.date)
    · simp only [latestStep, hg, bestStep]
      by_cases hlt : e.2 < item.date
      · rw [if_pos hlt, if_pos hlt]
        exact mapSet_get_self m item.currency (item.price, item.date)
      · rw [if_neg hlt, if_neg hlt, hg]
  · rw [if_neg hc]
    rcases hg : mapGet m item.currency with _ | e
    · simp only [latestStep, hg]
      exact mapSet_get_other m item.currency (item.price, item.date) c (fun h => hc h.symm)
    · simp only [latestStep, hg]
      by_cases hlt : e.2 < item.date
      · rw [if_pos hlt]
        exact mapSet_get_other m item.currency (item.price, item.date) c (fun h => hc h.symm)
      · rw [if_neg hlt]

theorem foldl_latestStep_get (data : List CurrencyPrice) : ∀ (m : PriceMap) (c : String),
    mapGet (data.foldl latestStep m) c = (obsFor c data).foldl bestStep (mapGet m c) := by
  induction data with
  | nil => intro m c; rfl
  | cons x xs ih =>
      intro m c
      rw [List.foldl_cons, ih]
      unfold obsFor
      rw [List.filter_cons]
      by_cases hc : x.currency = c
      · rw [if_pos (by simpa using hc), List.foldl_cons]
        rw [latestStep_get, if_pos hc]
      · rw [if_neg (by simpa using hc)]
        rw [latestStep_get, if_neg hc]

theorem bestStep_foldl_charact (l : List CurrencyPrice) : ∀ (p0 : ℚ) (d0 : ℤ) (p : ℚ) (d : ℤ),
    l.foldl bestStep (some (p0, d0)) = some (p, d) →
    (∀ x ∈ l, x.date ≤ d) ∧
    ((p = p0 ∧ d = d0 ∧ ∀ x ∈ l, x.date ≤ d0) ∨
     (d0 < d ∧ ∃ y, l.find? (fun x => decide (d ≤ x.date)) = some y ∧
        y.price = p ∧ y.date = d)) := by
  induction l with
  | nil =>
      intro p0 d0 p d h
      simp only [List.foldl_nil, Option.some.injEq, Prod.mk.injEq] at h
      obtain ⟨hp, hd⟩ := h
      subst hp
      subst hd
      exact ⟨fun x hx => absurd hx (List.not_mem_nil x),
        Or.inl ⟨rfl, rfl, fun x hx => absurd hx (List.not_mem_nil x)⟩⟩
  | cons x xs ih =>
      intro p0 d0 p d h
      rw [List.foldl_cons] at h
      by_cases hlt : d0 < x.date
      · rw [show bestStep (some (p0, d0)) x = some (x.price, x.date) from by
          simp [bestStep, hlt]] at h
        obtain ⟨hall, hcase⟩ := ih x.price x.date p d h
        have hxd : x.date ≤ d := by
          rcases hcase with ⟨_, hd, _⟩ | ⟨hlt2, _⟩
          · exact hd ▸ le_refl _
          · exact le_of_lt hlt2
        refine ⟨?_, Or.inr ⟨?_, ?_⟩⟩
        · intro z hz
          rcases List.mem_cons.mp hz with hz | hz
          · exact hz ▸ hxd
          · exact hall z hz
        · rcases hcase with ⟨_, hd, _⟩ | ⟨hlt2, _⟩
          · exact hd ▸ hlt
          · exact lt_trans hlt hlt2
        · rcases hcase with ⟨hp, hd, hbound⟩ | ⟨hlt2, y, hfind, hyp, hyd⟩
          · refine ⟨x, ?_, hp.symm, hd.symm⟩
            have hx : (fun z : CurrencyPrice => decide (d ≤ z.date)) x = true := by
              simp only [decide_eq_true_eq]
              exact le_of_eq hd
            rw [List.find?_cons_of_pos (p := fun z => decide (d ≤ z.date)) xs hx]
          · refine ⟨y, ?_, hyp, hyd⟩
            have hx : ¬ ((fun z : CurrencyPrice => decide (d ≤ z.date)) x = true) := by
              simp only [decide_eq_true_eq]
              exact not_le.mpr hlt2
            rw [List.find?_cons_of_neg (p := fun z => decide (d ≤ z.date)) xs hx]
            exact hfind
      · rw [show bestStep (some (p0, d0)) x = some (p0, d0) from by
          simp [bestStep, hlt]] at h
        obtain ⟨hall, hcase⟩ := ih p0 d0 p d h
        have hxle : x.date ≤ d0 := not_lt.mp hlt
        have hd0d : d0 ≤ d := by
          rcases hcase with ⟨_, hd, _⟩ | ⟨h2, _⟩
          · exact hd ▸ le_refl _
          · exact le_of_lt h2
        refine ⟨?_, ?_⟩
        · intro z hz
          rcases List.mem_cons.mp hz with hz | hz
          · exact hz ▸ le_trans hxle hd0d
          · exact hall z hz
        · rcases hcase with ⟨hp, hd, hbound⟩ | ⟨hlt2, y, hfind, hyp, hyd⟩
          · refine Or.inl ⟨hp, hd, ?_⟩
            intro z hz
            rcases List.mem_cons.mp hz with hz | hz
            · exact hz ▸ hxle
            · exact hbound z hz
          · refine Or.inr ⟨hlt2, y, ?_, hyp, hyd⟩
            have hxd : x.date < d := lt_of_le_of_lt hxle hlt2
            have hx : ¬ ((fun z : CurrencyPrice => decide (d ≤ z.date)) x = true) := by
              simp only [decide_eq_true_eq]
              exact not_le.mpr hxd
            rw [List.find?_cons_of_neg (p := fun z => decide (d ≤ z.date)) xs hx]
            exact hfind

theorem bestStep_foldl_none_spec (l : List CurrencyPrice) (p : ℚ) (d : ℤ)
    (h : l.foldl bestStep none = some (p, d)) :
    (∀ x ∈ l, x.date ≤ d) ∧
    ∃ y, l.find? (fun x => decide (d ≤ x.date)) = some y ∧ y.price = p ∧ y.date = d := by
  cases l with
  | nil => cases h
  | cons x xs =>
      rw [List.foldl_cons, show bestStep none x = some (x.price, x.date) from rfl] at h
      obtain ⟨hall, hcase⟩ := bestStep_foldl_charact xs x.price x.date p d h
      have hxd : x.date ≤ d := by
        rcases hcase with ⟨_, hd, _⟩ | ⟨h2, _⟩
        · exact hd ▸ le_refl _
        · exact le_of_lt h2
      refine ⟨?_, ?_⟩
      · intro z hz
        rcases List.mem_cons.mp hz with hz | hz
        · exact hz ▸ hxd
        · exact hall z hz
      · rcases hcase with ⟨hp, hd, hbound⟩ | ⟨h2, y, hfind, hyp, hyd⟩
        · refine ⟨x, ?_, hp.symm, hd.symm⟩
          have hx : (fun z : CurrencyPrice => decide (d ≤ z.date)) x = true := by
            simp only [decide_eq_true_eq]
            exact le_of_eq hd
          rw [List.find?_cons_of_pos (p := fun z => decide (d ≤ z.date)) xs hx]
        · refine ⟨y, ?_, hyp, hyd⟩
          have hx : ¬ ((fun z : CurrencyPrice => decide (d ≤ z.date)) x = true) := by
            simp only [decide_eq_true_eq]
            exact not_le.mpr h2
          rw [List.find?_cons_of_neg (p := fun z => decide (d ≤ z.date)) xs hx]
          exact hfind

theorem mapGet_mem_keys (m : PriceMap) (k : String) (v : ℚ × ℤ)
    (h : mapGet m k = some v) : k ∈ m.map Prod.fst := by
  unfold mapGet at h
  rcases hf : m.find? (fun e => decide (e.1 = k)) with _ | e
  · rw [hf] at h
    cases h
  · have hk : e.1 = k := by simpa using List.find?_some hf
    exact hk ▸ List.mem_map.mpr ⟨e, List.mem_of_find?_eq_some hf, rfl⟩

theorem latestStep_keys (m : PriceMap) (item : CurrencyPrice) :
    (latestStep m item).map Prod.fst =
      if item.currency ∈ m.map Prod.fst then m.map Prod.fst
      else m.map Prod.fst ++ [item.currency] := by
  rcases hg : mapGet m item.currency with _ | e
  · have hk : item.currency ∉ m.map Prod.fst := by
      intro hmem
      obtain ⟨e, hem, hek⟩ := List.mem_map.mp hmem
      have := (mapGet_eq_none_iff m item.currency).mp hg e hem
      exact this hek
    simp only [latestStep, hg]
    rw [mapSet_keys, if_neg hk]
  · have hk : item.currency ∈ m.map Prod.fst := mapGet_mem_keys m item.currency e hg
    simp only [latestStep, hg]
    by_cases hlt : e.2 < item.date
    · rw [if_pos hlt, mapSet_keys, if_pos hk]
    · rw [if_neg hlt, if_pos hk]

theorem foldl_latestStep_keys (data : List CurrencyPrice) : ∀ m : PriceMap,
    (data.foldl latestStep m).map Prod.fst =
      (data.map CurrencyPrice.currency).foldl
        (fun acc c => if c ∈ acc then acc else acc ++ [c]) (m.map Prod.fst) := by
  induction data with
  | nil => intro m; rfl
  | cons x xs ih =>
      intro m
      rw [List.foldl_cons, ih, List.map_cons, List.foldl_cons, latestStep_keys]

theorem dedup_foldl_mem (l : List String) : ∀ (acc : List String) (c : String),
    c ∈ l.foldl (fun acc c => if c ∈ acc then acc else acc ++ [c]) acc ↔ c ∈ acc ∨ c ∈ l := by
  induction l with
  | nil => intro acc c; simp
  | cons x xs ih =>
      intro acc c
      rw [List.foldl_cons, ih]
      by_cases hx : x ∈ acc
      · rw [if_pos hx]
        constructor
        · rintro (h | h)
          · exact Or.inl h
          · exact Or.inr (List.mem_cons_of_mem x h)
        · rintro (h | h)
          · exact Or.inl h
          · rcases List.mem_cons.mp h with h | h
            · exact Or.inl (h ▸ hx)
            · exact Or.inr h
      · rw [if_neg hx]
        constructor
        · rintro (h | h)
          · rcases List.mem_append.mp h with h | h
            · exact Or.inl h
            · exact Or.inr (List.mem_cons.mpr (Or.inl (by simpa using h)))
          · exact Or.inr (List.mem_cons_of_mem x h)
        · rintro (h | h)
          · exact Or.inl (List.mem_append.mpr (Or.inl h))
          · rcases List.mem_cons.mp h with h | h
            · exact Or.inl (List.mem_append.mpr (Or.inr (by simpa using h)))
            · exact Or.inr h

theorem dedup_foldl_nodup (l : List String) : ∀ acc : List String, acc.Nodup →
    (l.foldl (fun acc c => if c ∈ acc then acc else acc ++ [c]) acc).Nodup := by
  induction l with
  | nil => intro acc h; exact h
  | cons x xs ih =>
      intro acc h
      rw [List.foldl_cons]
      by_cases hx : x ∈ acc
      · rw [if_pos hx]
        exact ih acc h
      · rw [if_neg hx]
        refine ih _ ?_
        rw [List.nodup_append]
        refine ⟨h, List.nodup_singleton x, ?_⟩
        intro a ha hax
        have hax2 : a = x := by simpa using hax
        exact hx (hax2 ▸ ha)

theorem mapSet_entry_mem (m : PriceMap) (k : String) (v : ℚ × ℤ) (e : String × (ℚ × ℤ))
    (h : e ∈ mapSet m k v) : e ∈ m ∨ e = (k, v) := by
  unfold mapSet at h
  by_cases ha : m.any (fun e => e.1 = k)
  · rw [if_pos ha] at h
    obtain ⟨e0, he0, hfe⟩ := List.mem_map.mp h
    by_cases hk : e0.1 = k
    · rw [if_pos hk] at hfe
      exact Or.inr hfe.symm
    · rw [if_neg hk] at hfe
      exact Or.inl (hfe ▸ he0)
  · rw [if_neg ha] at h
    rcases List.mem_append.mp h with h | h
    · exact Or.inl h
    · exact Or.inr (by simpa using h)

theorem latestStep_entry_mem (m : PriceMap) (item : CurrencyPrice) (e : String × (ℚ × ℤ))
    (h : e ∈ latestStep m item) : e ∈ m ∨ e = (item.currency, (item.price, item.date)) := by
  rcases hg : mapGet m item.currency with _ | ex
  · simp only [latestStep, hg] at h
    exact mapSet_entry_mem m item.currency (item.price, item.date) e h
  · simp only [latestStep, hg] at h
    by_cases hlt : ex.2 < item.date
    · rw [if_pos hlt] at h
      exact mapSet_entry_mem m item.currency (item.price, item.date) e h
    · rw [if_neg hlt] at h
      exact Or.inl h

theorem foldl_latestStep_entry_mem (data : List CurrencyPrice) : ∀ (m : PriceMap)
    (e : String × (ℚ × ℤ)), e ∈ data.foldl latestStep m →
    e ∈ m ∨ (⟨e.1, e.2.1, e.2.2⟩ : CurrencyPrice) ∈ data := by
  induction data with
  | nil => intro m e h; exact Or.inl h
  | cons x xs ih =>
      intro m e h
      rw [List.foldl_cons] at h
      rcases ih (latestStep m x) e h with h1 | h1
      · rcases latestStep_entry_mem m x e h1 with h2 | h2
        · exact Or.inl h2
        · refine Or.inr (List.mem_cons.mpr (Or.inl ?_))
          rw [h2]
      · exact Or.inr (List.mem_cons_of_mem x h1)

theorem mapGet_of_mem_of_nodup (m : PriceMap) (hnd : (m.map Prod.fst).Nodup)
    (k : String) (v : ℚ × ℤ) (hm : (k, v) ∈ m) : mapGet m k = some v := by
  induction m with
  | nil => cases hm
  | cons e es ih =>
      rw [List.map_cons, List.nodup_cons] at hnd
      obtain ⟨hhead, htail⟩ := hnd
      rcases List.mem_cons.mp hm with hm | hm
      · have he : e = (k, v) := hm.symm
        subst he
        unfold mapGet
        rw [List.find?_cons_of_pos (p := fun z => decide (z.1 = k)) es (by simp)]
        rfl
      · have hek : ¬ e.1 = k := by
          intro hek
          exact hhead (hek ▸ List.mem_map.mpr ⟨(k, v), hm, rfl⟩)
        unfold mapGet
        rw [List.find?_cons_of_neg (p := fun z => decide (z.1 = k)) es (by simpa using hek)]
        exact ih htail hm

theorem countP_key_nodup (l : List String) (c : String) (hl : l.Nodup) :
    l.countP (fun k => decide (k = c)) = if c ∈ l then 1 else 0 := by
  induction l with
  | nil => rfl
  | cons x xs ih =>
      rw [List.nodup_cons] at hl
      obtain ⟨hx, hxs⟩ := hl
      rw [List.countP_cons]
      by_cases hxc : x = c
      · subst hxc
        rw [if_pos (List.mem_cons_self x xs)]
        have : x ∉ xs := hx
        rw [ih hxs, if_neg this]
        simp
      · have hmem : (c ∈ x :: xs) ↔ (c ∈ xs) := by
          rw [List.mem_cons]
          exact ⟨fun h => h.resolve_left (fun h2 => hxc h2.symm), Or.inr⟩
        rw [ih hxs]
        by_cases hc : c ∈ xs
        · rw [if_pos hc, if_pos (hmem.mpr hc)]
          simp [hxc]
        · rw [if_neg hc, if_neg (fun h => hc (hmem.mp h))]
          simp [hxc]

theorem getLatestTokenPrices_keys (data : List CurrencyPrice) :
    (getLatestTokenPrices data).map CurrencyPrice.currency =
      firstOccurrences (data.map CurrencyPrice.currency) := by
  unfold getLatestTokenPrices firstOccurrences
  rw [List.map_map]
  have h1 : (CurrencyPrice.currency ∘
      fun (e : String × (ℚ × ℤ)) => (⟨e.1, e.2.1, e.2.2⟩ : CurrencyPrice)) = Prod.fst := by
    funext e
    rfl
  rw [h1]
  simpa using foldl_latestStep_keys data []

theorem mem_getLatestTokenPrices_mapGet (data : List CurrencyPrice) (e : CurrencyPrice)
    (he : e ∈ getLatestTokenPrices data) :
    mapGet (data.foldl latestStep []) e.currency = some (e.price, e.date) := by
  unfold getLatestTokenPrices at he
  obtain ⟨me, hme, hg⟩ := List.mem_map.mp he
  have hnd : ((data.foldl latestStep []).map Prod.fst).Nodup := by
    rw [foldl_latestStep_keys data []]
    exact dedup_foldl_nodup _ [] List.nodup_nil
  subst hg
  exact mapGet_of_mem_of_nodup _ hnd me.1 me.2 hme

/-- C3 (amended): for every feed, the normalized output has exactly one
entry per distinct currency of the input; each entry's date is the maximum
date among that currency's observations, and the stored entry is the first
observation in input order attaining that maximum date — the source
replaces only on strictly greater dates, so a tie on the maximal date keeps
the earlier observation, not the last one. -/
theorem getLatestTokenPrices_latest_spec (data : List CurrencyPrice) (c : String) :
    ((getLatestTokenPrices data).countP (fun e => decide (e.currency = c)) =
      if c ∈ data.map CurrencyPrice.currency then 1 else 0) ∧
    ∀ e ∈ getLatestTokenPrices data,
      (∀ x ∈ obsFor e.currency data, x.date ≤ e.date) ∧
      (obsFor e.currency data).find? (fun x => decide (e.date ≤ x.date)) = some e := by
  constructor
  · rw [show (fun (e : CurrencyPrice) => decide (e.currency = c)) =
      ((fun k => decide (k = c)) ∘ CurrencyPrice.currency) from rfl, ← List.countP_map]
    rw [getLatestTokenPrices_keys]
    have hnd : (firstOccurrences (data.map CurrencyPrice.currency)).Nodup :=
      dedup_foldl_nodup _ [] List.nodup_nil
    rw [countP_key_nodup _ c hnd]
    have hiff : c ∈ firstOccurrences (data.map CurrencyPrice.currency) ↔
        c ∈ data.map CurrencyPrice.currency := by
      unfold firstOccurrences
      rw [dedup_foldl_mem]
      simp
    exact if_congr hiff rfl rfl
  · intro e he
    have hget := mem_getLatestTokenPrices_mapGet data e he
    rw [foldl_latestStep_get data [] e.currency] at hget
    obtain ⟨hall, y, hfind, hyp, hyd⟩ := bestStep_foldl_none_spec _ _ _ hget
    refine ⟨hall, ?_⟩
    have hymem : y ∈ data.filter (fun x => decide (x.currency = e.currency)) :=
      List.mem_of_find?_eq_some hfind
    have hyc : y.currency = e.currency := by
      have := (List.mem_filter.mp hymem).2
      simpa using this
    have hy : y = e := CurrencyPrice.ext hyc hyp hyd
    rw [hy] at hfind
    exact hfind

/-- Counterexample to C3 as stated: two observations of currency A share the
maximal date; the normalizer keeps the first one (price 1), not the last
one (price 2), because the source replaces only on strictly greater dates. -/
theorem getLatestTokenPrices_tie_counterexample :
    getLatestTokenPrices [⟨"A", 1, 5⟩, ⟨"A", 2, 5⟩] = [⟨"A", 1, 5⟩] ∧
    getLatestTokenPrices [⟨"A", 1, 5⟩, ⟨"A", 2, 5⟩] ≠ [⟨"A", 2, 5⟩] := by
  constructor <;> decide

/-- Witness for C3: on the tie feed, the stored entry for A bounds all dates
of A and is the first observation attaining the maximal date. -/
theorem getLatestTokenPrices_latest_spec_witness :
    (∀ x ∈ obsFor "A" [⟨"A", 1, 5⟩, ⟨"A", 2, 5⟩], x.date ≤ (5 : ℤ)) ∧
    (obsFor "A" [⟨"A", 1, 5⟩, ⟨"A", 2, 5⟩]).find?
      (fun x => decide ((5 : ℤ) ≤ x.date)) = some ⟨"A", 1, 5⟩ :=
  (getLatestTokenPrices_latest_spec [⟨"A", 1, 5⟩, ⟨"A", 2, 5⟩] "A").2 ⟨"A", 1, 5⟩ (by decide)

theorem initialSelection_headPair (cs : List CurrencyPrice) :
    initialSelection cs = headPair (cs.map CurrencyPrice.currency) := by
  cases cs with
  | nil => rfl
  | cons x t =>
      cases t with
      | nil => rfl
      | cons y t2 => rfl

/-- C10: every normalized entry is verbatim one of the input observations,
the output lists currencies in first-occurrence order of the input, and the
initial from/to selection is read off the first two entries of that order. -/
theorem getLatestTokenPrices_order_spec (data : List CurrencyPrice) :
    (∀ e ∈ getLatestTokenPrices data, e ∈ data) ∧
    (getLatestTokenPrices data).map CurrencyPrice.currency =
      firstOccurrences (data.map CurrencyPrice.currency) ∧
    initialSelection (getLatestTokenPrices data) =
      headPair (firstOccurrences (data.map CurrencyPrice.currency)) := by
  refine ⟨?_, getLatestTokenPrices_keys data, ?_⟩
  · intro e he
    unfold getLatestTokenPrices at he
    obtain ⟨me, hme, hg⟩ := List.mem_map.mp he
    rcases foldl_latestStep_entry_mem data [] me hme with h | h
    · cases h
    · rw [← hg]
      exact h
  · rw [initialSelection_headPair, getLatestTokenPrices_keys]

/-- Witness for C10: a normalized entry taken from a feed with a duplicate
currency occurs verbatim in the feed. -/
theorem getLatestTokenPrices_order_spec_witness :
    (⟨"B", 3, 9⟩ : CurrencyPrice) ∈ [⟨"B", 1, 0⟩, ⟨"A", 2, 0⟩, ⟨"B", 3, 9⟩] :=
  (getLatestTokenPrices_order_spec [⟨"B", 1, 0⟩, ⟨"A", 2, 0⟩, ⟨"B", 3, 9⟩]).1
    ⟨"B", 3, 9⟩ (by decide)

/-- C2 evaluation at the spec's end-to-end example (code_bug): normalization
yields the claimed index, but the conversion yields rate 1/17 and output
2/17 — the reciprocal of the claimed rate 17 and output 34. Two BTC at
price 51000 are worth 34 ETH at price 3000; the code computes
`toPrice / fromPrice` and so converts in the wrong direction. -/
theorem feedExample_eval :
    getLatestTokenPrices
        [⟨"BTC", 50000, 20240101⟩, ⟨"BTC", 51000, 20240102⟩, ⟨"ETH", 3000, 20240101⟩] =
      [⟨"BTC", 51000, 20240102⟩, ⟨"ETH", 3000, 20240101⟩] ∧
    computeConversion [⟨"BTC", 51000, 20240102⟩, ⟨"ETH", 3000, 20240101⟩] "BTC" "ETH" "2" =
      .Converted (1 / 17) (2 / 17) ∧
    (1 / 17 : ℚ) ≠ 17 ∧ (2 / 17 : ℚ) ≠ 34 := by
  refine ⟨by decide, ?_, by norm_num, by norm_num⟩
  have hB : pricesGet [⟨"BTC", (51000 : ℚ), (20240102 : ℤ)⟩, ⟨"ETH", 3000, 20240101⟩]
      "BTC" = some 51000 := by decide
  have hE : pricesGet [⟨"BTC", (51000 : ℚ), (20240102 : ℤ)⟩, ⟨"ETH", 3000, 20240101⟩]
      "ETH" = some 3000 := by decide
  simp only [computeConversion, hB, hE, parseFloat_two]
  norm_num

/-- C6 (amended): for any currency present in the index with a nonzero
stored price, converting it to itself at amount text 5 gives rate exactly 1
and output exactly 5; the rate is derived by the division `p / p`, which
cancels exactly, so the nonzero hypothesis is needed — it is not
special-cased as the spec says. -/
theorem computeConversion_identity_nonzero (index : List CurrencyPrice) (X : String)
    (p : ℚ) (hX : pricesGet index X = some p) (hp : p ≠ 0) :
    computeConversion index X X "5" = .Converted 1 5 := by
  simp only [computeConversion, hX, parseFloat_five, div_self hp]
  norm_num

/-- Counterexample to C6 as stated: a zero stored price is passed through by
the normalizer, and converting that currency to itself then yields the rate
`0 / 0` — `0` in the rational model, `NaN` in JavaScript — not the claimed
exact rate 1 and output 5. -/
theorem computeConversion_identity_counterexample :
    computeConversion (getLatestTokenPrices [⟨"X", 0, 0⟩]) "X" "X" "5" = .Converted 0 0 ∧
    ConversionResult.Converted (0 : ℚ) (0 : ℚ) ≠ .Converted 1 5 := by
  constructor
  · have hX : pricesGet (getLatestTokenPrices [⟨"X", 0, 0⟩]) "X" = some 0 := by decide
    simp only [computeConversion, hX, parseFloat_five]
    norm_num
  · simp only [ne_eq, ConversionResult.Converted.injEq, not_and]
    intro h
    exact absurd h (by norm_num)

/-- Witness for C6 at a nonzero concrete price. -/
theorem computeConversion_identity_nonzero_witness :
    computeConversion [⟨"X", 2, 0⟩] "X" "X" "5" = .Converted 1 5 :=
  computeConversion_identity_nonzero [⟨"X", 2, 0⟩] "X" 2 (by decide) (by norm_num)

/-- C5 (amended): a zero stored from-price is not guarded against: with both
currencies present and a positive parsed amount, computeConversion still
returns a Converted result produced by the unguarded division
`toPrice / fromPrice` (which is `Infinity` or `NaN` in JavaScript and `0` in
the rational model), instead of failing with an InvalidAmount-class error. -/
theorem computeConversion_zero_price_unguarded (index : List CurrencyPrice)
    (fromC toC amountText : String) (tp a : ℚ)
    (hf : pricesGet index fromC = some 0) (ht : pricesGet index toC = some tp)
    (hp : parseFloat amountText = some a) (ha : 0 < a) :
    computeConversion index fromC toC amountText = .Converted (tp / 0) (a * (tp / 0)) :=
  computeConversion_eq_converted index fromC toC amountText 0 tp a hf ht hp ha

/-- Counterexample to C5 as stated: with a zero from-price the result is a
Converted value, not an InvalidAmount-class error. -/
theorem computeConversion_zero_price_counterexample :
    computeConversion [⟨"A", 0, 0⟩, ⟨"B", 2, 0⟩] "A" "B" "5" = .Converted 0 0 ∧
    ConversionResult.Converted (0 : ℚ) (0 : ℚ) ≠ .InvalidAmount := by
  constructor
  · have hA : pricesGet [⟨"A", (0 : ℚ), (0 : ℤ)⟩, ⟨"B", 2, 0⟩] "A" = some 0 := by decide
    have hB : pricesGet [⟨"A", (0 : ℚ), (0 : ℤ)⟩, ⟨"B", 2, 0⟩] "B" = some 2 := by decide
    simp only [computeConversion, hA, hB, parseFloat_five]
    norm_num
  · decide

/-- Witness for C5 at a concrete index with a zero from-price. -/
theorem computeConversion_zero_price_unguarded_witness :
    computeConversion [⟨"A", 0, 0⟩, ⟨"B", 2, 0⟩] "A" "B" "5" =
      .Converted ((2 : ℚ) / 0) (5 * ((2 : ℚ) / 0)) :=
  computeConversion_zero_price_unguarded [⟨"A", 0, 0⟩, ⟨"B", 2, 0⟩] "A" "B" "5" 2 5
    (by decide) (by decide) parseFloat_five (by norm_num)

/-- C4 (amended): on a Converted result the recompute effect sets the rate
and the derived amount and clears the error; on Unavailable it clears both
and sets the error message only when both currency fields are nonempty and
loading is over (otherwise the error stays cleared); on InvalidAmount it
clears the derived amount and sets the error message, but the rate is NOT
cleared — it keeps the value `toPrice / fromPrice` computed before the
amount check. -/
theorem recompute_spec (index : List CurrencyPrice) (fromC toC amountText : String)
    (loading : Bool) :
    (∀ r o, computeConversion index fromC toC amountText = .Converted r o →
      recompute index fromC toC amountText loading = ⟨some r, some o, ""⟩) ∧
    (computeConversion index fromC toC amountText = .Unavailable →
      recompute index fromC toC amountText loading =
        ⟨none, none,
          if fromC ≠ "" ∧ toC ≠ "" ∧ loading = false then
            "Exchange rate not available for selected currencies."
          else ""⟩) ∧
    (computeConversion index fromC toC amountText = .InvalidAmount →
      ∃ fp tp, pricesGet index fromC = some fp ∧ pricesGet index toC = some tp ∧
        recompute index fromC toC amountText loading =
          ⟨some (tp / fp), none, "Please enter a valid amount to send."⟩) := by
  rcases hf : pricesGet index fromC with _ | fp
  · refine ⟨?_, ?_, ?_⟩
    · intro r o h
      simp [computeConversion, hf] at h
    · intro _
      simp only [recompute, hf]
    · intro h
      simp [computeConversion, hf] at h
  · rcases ht : pricesGet index toC with _ | tp
    · refine ⟨?_, ?_, ?_⟩
      · intro r o h
        simp [computeConversion, hf, ht] at h
      · intro _
        simp only [recompute, hf, ht]
      · intro h
        simp [computeConversion, hf, ht] at h
    · rcases hp : parseFloat amountText with _ | a
      · refine ⟨?_, ?_, ?_⟩
        · intro r o h
          simp [computeConversion, hf, ht, hp] at h
        · intro h
          simp [computeConversion, hf, ht, hp] at h
        · intro _
          exact ⟨fp, tp, rfl, rfl, by simp only [recompute, hf, ht, hp]⟩
      · by_cases ha : 0 < a
        · refine ⟨?_, ?_, ?_⟩
          · intro r o h
            simp only [computeConversion, hf, ht, hp, if_pos ha,
              ConversionResult.Converted.injEq] at h
            obtain ⟨hr, ho⟩ := h
            simp only [recompute, hf, ht, hp, if_pos ha]
            rw [ho, hr]
          · intro h
            simp [computeConversion, hf, ht, hp, if_pos ha] at h
          · intro h
            simp [computeConversion, hf, ht, hp, if_pos ha] at h
        · refine ⟨?_, ?_, ?_⟩
          · intro r o h
            simp [computeConversion, hf, ht, hp, if_neg ha] at h
          · intro h
            simp [computeConversion, hf, ht, hp, if_neg ha] at h
          · intro _
            exact ⟨fp, tp, rfl, rfl, by simp only [recompute, hf, ht, hp, if_neg ha]⟩

/-- Counterexample to C4 as stated: on an InvalidAmount recomputation (empty
amount text) the rate is left set, not cleared; and on an Unavailable
recomputation with empty currency fields during loading no error message is
set. -/
theorem recompute_counterexample :
    (recompute [⟨"A", 1, 0⟩, ⟨"B", 2, 0⟩] "A" "B" "" false).exchangeRate = some 2 ∧
    (recompute [⟨"A", 1, 0⟩, ⟨"B", 2, 0⟩] "A" "B" "" false).error =
      "Please enter a valid amount to send." ∧
    computeConversion [⟨"A", 1, 0⟩, ⟨"B", 2, 0⟩] "A" "B" "" = .InvalidAmount ∧
    computeConversion [] "" "" "1.0" = .Unavailable ∧
    (recompute [] "" "" "1.0" true).error = "" := by
  have hA : pricesGet [⟨"A", (1 : ℚ), (0 : ℤ)⟩, ⟨"B", 2, 0⟩] "A" = some 1 := by decide
  have hB : pricesGet [⟨"A", (1 : ℚ), (0 : ℤ)⟩, ⟨"B", 2, 0⟩] "B" = some 2 := by decide
  have hn : pricesGet ([] : List CurrencyPrice) "" = none := rfl
  refine ⟨?_, ?_, ?_, ?_, ?_⟩
  · simp only [recompute, hA, hB, parseFloat_empty]
    norm_num
  · simp only [recompute, hA, hB, parseFloat_empty]
  · simp only [computeConversion, hA, hB, parseFloat_empty]
  · simp only [computeConversion, hn]
  · simp only [recompute, hn]
    norm_num

/-- Witness for C4 on the Converted branch at a concrete input. -/
theorem recompute_spec_witness :
    recompute [⟨"A", 1, 0⟩, ⟨"B", 2, 0⟩] "A" "B" "2" false =
      ⟨some ((2 : ℚ) / 1), some (2 * ((2 : ℚ) / 1)), ""⟩ :=
  (recompute_spec [⟨"A", 1, 0⟩, ⟨"B", 2, 0⟩] "A" "B" "2" false).1 ((2 : ℚ) / 1)
    (2 * ((2 : ℚ) / 1))
    (computeConversion_eq_converted [⟨"A", 1, 0⟩, ⟨"B", 2, 0⟩] "A" "B" "2" 1 2 2
      (by decide) (by decide) parseFloat_two (by norm_num))
